import Mathlib

/-!
Verification of the convex-hull analysis tool (`hull_tools/hull.py`).

The pipeline `load_entries` / `analyze` is embedded from the source file.
The library calls it delegates to (pandas table handling, the pymatgen
classes `Composition`, `PDEntry`, `PhaseDiagram`, `PDPlotter`) are
modelled: the composition parser and the phase-diagram queries follow
the specification's description of those components (sections 3, 4.1,
4.3, 4.4), with exact rational/real arithmetic in place of floating
point.  The lower convex envelope is expressed as the infimum over
convex combinations of entry points, the standard characterization of
the hull value at a composition.
-/

namespace HullSeeds

/-- A chemical composition as pymatgen stores it: element symbols with
raw (unnormalized) amounts, kept in canonical sorted order by symbol. -/
structure Composition where
  amounts : List (String × ℚ)
deriving DecidableEq

/-- Total atom count of the formula as written (pymatgen `num_atoms`). -/
def Composition.natoms (c : Composition) : ℚ :=
  (c.amounts.map Prod.snd).sum

/-- Raw amount of element `el` in the formula (0 when absent). -/
def Composition.amt (c : Composition) (el : String) : ℚ :=
  ((c.amounts.find? (fun p => p.1 == el)).map Prod.snd).getD 0

/-- Atomic fraction of element `el` (spec section 3: fractions are the
amounts normalized so they sum to 1). -/
def Composition.frac (c : Composition) (el : String) : ℚ :=
  c.amt el / c.natoms

/-- Element symbols appearing in the composition. -/
def Composition.elems (c : Composition) : List String :=
  c.amounts.map Prod.fst

/-- Whether the composition is a pure-element composition of `el`
(pymatgen `Composition.is_element`, specialized to a given element). -/
def Composition.isElement (c : Composition) (el : String) : Bool :=
  match c.amounts with
  | [(e, a)] => e == el && decide (0 < a)
  | _ => false

/-- Insert an (element, amount) pair into a symbol-sorted association
list, adding the amounts when the symbol is already present. -/
def insertAmt (el : String) (a : ℚ) : List (String × ℚ) → List (String × ℚ)
  | [] => [(el, a)]
  | (e, b) :: t =>
    if el = e then (e, b + a) :: t
    else if el < e then (el, a) :: (e, b) :: t
    else (e, b) :: insertAmt el a t

/-- Digits of a decimal integer as a natural number; a non-digit fails.
The empty list gives 0; callers rule out the empty case. -/
def digitsToNat (l : List Char) : Option ℕ :=
  l.foldl (fun acc c => acc.bind
    (fun n => if c.isDigit then some (10 * n + (c.toNat - 48)) else none)) (some 0)

/-- Decimal literal over a character list: digits, with at most one
point, at least one digit in total. -/
def parseDecimalChars (l : List Char) : Option ℚ :=
  let intPart := l.takeWhile Char.isDigit
  let rest := l.dropWhile Char.isDigit
  match rest with
  | [] =>
    if intPart.isEmpty then none else (digitsToNat intPart).map (fun n => (n : ℚ))
  | '.' :: fracPart =>
    if fracPart.all Char.isDigit && !(intPart.isEmpty && fracPart.isEmpty) then
      (digitsToNat intPart).bind (fun ia =>
        (digitsToNat fracPart).map
          (fun ib => (ia : ℚ) + (ib : ℚ) / ((10 : ℚ) ^ fracPart.length)))
    else none
  | _ => none

/-- Modelled from the spec: decimal amounts such as `2`, `0.5` or `.5`
(section 4.1; the concrete parser lives in the external pymatgen
`Composition` class, not in `src/`). -/
def parseDecimal (s : String) : Option ℚ :=
  parseDecimalChars s.data

/-- One step of the formula tokenizer: the state is the running list of
(symbol, digit-string) tokens, newest first; `none` means a malformed
formula was detected. -/
def stepChar (st : Option (List (String × String))) (ch : Char) :
    Option (List (String × String)) :=
  match st with
  | none => none
  | some toks =>
    if ch.isUpper then some ((ch.toString, "") :: toks)
    else if ch.isLower then
      match toks with
      | (sym, num) :: rest =>
        if num = "" then some ((sym ++ ch.toString, "") :: rest) else none
      | [] => none
    else if ch.isDigit || ch = '.' then
      match toks with
      | (sym, num) :: rest => some ((sym, num.push ch) :: rest)
      | [] => none
    else none

/-- Modelled from the spec: the composition parser of section 4.1 (the
external pymatgen `Composition` constructor).  Tokenizes a
`"Li4Fe3O8"`-style formula into (symbol, amount) pairs, each amount
defaulting to 1, fails on malformed input or a zero total atom count,
and produces the canonical sorted amount list. -/
def parseComposition (s : String) : Option Composition := do
  let toks ← s.toList.foldl stepChar (some [])
  let pairs ← toks.reverse.mapM (fun p =>
    if p.2 = "" then some (p.1, (1 : ℚ))
    else (parseDecimal p.2).map (fun q => (p.1, q)))
  let merged := pairs.foldl (fun acc p => insertAmt p.1 p.2 acc) []
  let c : Composition := ⟨merged⟩
  if 0 < c.natoms then some c else none

/-- A parsed floating-point cell: exact rational for finite values, plus
the non-finite values Python floats admit. -/
inductive EnergyVal where
  | fin (q : ℚ)
  | nan
  | inf
  | ninf
deriving DecidableEq

/-- Whether a parsed energy value is finite. -/
def EnergyVal.isFinite : EnergyVal → Bool
  | .fin _ => true
  | _ => false

/-- Remove leading and trailing whitespace from a character list. -/
def trimChars (l : List Char) : List Char :=
  ((l.dropWhile Char.isWhitespace).reverse.dropWhile Char.isWhitespace).reverse

/-- An optionally signed decimal literal. -/
def parseSigned (l : List Char) : Option ℚ :=
  match l with
  | '-' :: rest => (parseDecimalChars rest).map (fun q => -q)
  | '+' :: rest => parseDecimalChars rest
  | _ => parseDecimalChars l

/-- Modelled from Python `float(...)` applied to a CSV cell read by
pandas: decimal literals with an optional sign, the non-finite spellings
`nan` and `inf`, and the empty cell (pandas reads it as NaN).
Scientific notation is not exercised by any claim and is omitted. -/
def parseEnergy (s : String) : Option EnergyVal :=
  let t : String := ⟨(trimChars s.data).map Char.toLower⟩
  if t = "" || t = "nan" then some .nan
  else if t = "inf" || t = "+inf" || t = "infinity" then some .inf
  else if t = "-inf" || t = "-infinity" then some .ninf
  else (parseSigned t.data).map (fun q => .fin q)

/-- pymatgen `PDEntry(composition, energy)`: the second argument is the
TOTAL energy of the composition as written.  `load_entries` passes the
CSV's per-atom value here. -/
structure PDEntry where
  comp : Composition
  energy : EnergyVal
deriving DecidableEq

/-- An entry with finite energy, as used by the frozen phase diagram. -/
structure Entry where
  comp : Composition
  energyTot : ℚ
deriving DecidableEq

/-- pymatgen `energy_per_atom`: the stored (total) energy divided by the
atom count of the formula. -/
def Entry.epa (e : Entry) : ℚ := e.energyTot / e.comp.natoms

/-- The input table: header names and rows of raw cells, as handed over
by `pd.read_csv` (cell values kept as text). -/
structure Csv where
  columns : List String
  rows : List (List String)
deriving DecidableEq

/-- Cell of `row` under column `col` (`row[col]` on an iterrows row;
only used after the column's presence has been checked). -/
def getCell (t : Csv) (row : List String) (col : String) : String :=
  row.getD (t.columns.findIdx (fun c => c == col)) ""

/-- Error kinds of the run, named as in the spec (section 7).
`invalidEnergyError` is declared because the spec names it; no code path
below produces it.  `qhullError` stands for the external hull routine
rejecting non-finite coordinates. -/
inductive Err where
  | missingColumnError
  | malformedCompositionError
  | energyParseError
  | invalidEnergyError
  | missingElementalReferenceError
  | qhullError
deriving DecidableEq

/-- Row-by-row effectful map, mirroring the Python `for` loops that stop
at the first raised exception. -/
def exMap (f : α → Except Err β) : List α → Except Err (List β)
  | [] => .ok []
  | a :: t =>
    match f a with
    | .error e => .error e
    | .ok b =>
      match exMap f t with
      | .error e => .error e
      | .ok bs => .ok (b :: bs)

/-- One iteration of the `load_entries` row loop:
`Composition(str(row["composition"]))`, then
`float(row["energy_per_atom_eV"])`, then `PDEntry(comp, epa)`. -/
def rowParse (t : Csv) (row : List String) : Except Err PDEntry :=
  match parseComposition (getCell t row "composition") with
  | none => .error .malformedCompositionError
  | some comp =>
    match parseEnergy (getCell t row "energy_per_atom_eV") with
    | none => .error .energyParseError
    | some ev => .ok (⟨comp, ev⟩ : PDEntry)

/-- `load_entries` from `hull.py`: checks the two required columns, then
builds one `PDEntry` per row, returning the table and the entry list. -/
def load_entries (t : Csv) : Except Err (Csv × List PDEntry) :=
  if "composition" ∈ t.columns ∧ "energy_per_atom_eV" ∈ t.columns then
    (exMap (rowParse t) t.rows).map (fun es => (t, es))
  else Except.error Err.missingColumnError

/-- The chemical system's element list: the union over all entries,
first seen first (pymatgen `PhaseDiagram.elements` up to order). -/
def systemElements (es : List PDEntry) : List String :=
  es.foldl (fun acc e =>
    e.comp.elems.foldl (fun a el => if el ∈ a then a else a ++ [el]) acc) []

/-- Modelled from the spec / pymatgen `PhaseDiagram.__init__`: checks
that every element of the system has a pure-element entry (its elemental
reference) before any hull geometry, then that every energy is finite
(the external hull routine rejects non-finite points), yielding the
frozen entry list of the diagram. -/
def buildPhaseDiagram (es : List PDEntry) : Except Err (List Entry) :=
  if (systemElements es).all (fun el => es.any (fun e => e.comp.isElement el)) then
    exMap (fun e => match e.energy with
      | .fin q => Except.ok (⟨e.comp, q⟩ : Entry)
      | _ => Except.error Err.qhullError) es
  else Except.error Err.missingElementalReferenceError

/-- Minimum of a list of rationals (0 for the empty list; callers
guarantee nonemptiness). -/
def minList : List ℚ → ℚ
  | [] => 0
  | q :: qs => qs.foldl min q

/-- Elemental reference energy per atom of `el`: the lowest
`energy_per_atom` among pure-`el` entries (pymatgen `el_refs`). -/
def refEpa (L : List Entry) (el : String) : ℚ :=
  minList ((L.filter (fun x => x.comp.isElement el)).map Entry.epa)

/-- pymatgen `get_form_energy_per_atom`: the entry's energy per atom
minus the fraction-weighted elemental reference energies. -/
def formEnergyPerAtom (L : List Entry) (e : Entry) : ℚ :=
  e.epa - (e.comp.elems.map (fun el => e.comp.frac el * refEpa L el)).sum

/-- Default entry, used only as the `getD` fallback. -/
def dEntry : Entry := ⟨⟨[]⟩, 0⟩

/-- Modelled from the spec (sections 4.3-4.4): `w` describes a convex
combination of the diagram's entries whose combined composition has the
atomic fractions of `c`.  Weights beyond the entry list are zero. -/
def ComboOn (L : List Entry) (w : ℕ → ℝ) (c : Composition) : Prop :=
  (∀ i, 0 ≤ w i) ∧ (∀ i, L.length ≤ i → w i = 0) ∧
    (∑ i in Finset.range L.length, w i) = 1 ∧
    ∀ el : String,
      (∑ i in Finset.range L.length, w i * ((L.getD i dEntry).comp.frac el : ℝ)) =
        (c.frac el : ℝ)

/-- Energy per atom of the convex combination `w`. -/
def comboValue (L : List Entry) (w : ℕ → ℝ) : ℝ :=
  ∑ i in Finset.range L.length, w i * ((L.getD i dEntry).epa : ℝ)

/-- All per-atom energies reachable at composition `c` by convex
combinations of the entries. -/
def hullValues (L : List Entry) (c : Composition) : Set ℝ :=
  { v | ∃ w, ComboOn L w c ∧ v = comboValue L w }

/-- Modelled from the spec: the lower convex envelope evaluated at `c`
(the facet interpolation of section 4.3 equals this infimum over convex
combinations). -/
noncomputable def hullEnergy (L : List Entry) (c : Composition) : ℝ :=
  sInf (hullValues L c)

/-- pymatgen `get_e_above_hull`: energy per atom above the envelope. -/
noncomputable def eAboveHull (L : List Entry) (e : Entry) : ℝ :=
  (e.epa : ℝ) - hullEnergy L e.comp

/-- Modelled from the spec: `e` is a vertex of the lower hull (an
extreme point): the only combinations at its composition that reach its
energy or less put all their weight on occurrences of `e` itself. -/
def IsHullVertex (L : List Entry) (e : Entry) : Prop :=
  e ∈ L ∧ ∀ w, ComboOn L w e.comp → comboValue L w ≤ (e.epa : ℝ) →
    ∀ i < L.length, L.getD i dEntry ≠ e → w i = 0

/-- An output-table cell: one of the input's text cells, or a computed
number. -/
inductive Cell where
  | str (s : String)
  | real (r : ℝ)

/-- A pandas data frame: named columns and rows of cells. -/
structure Frame where
  columns : List String
  cells : List (List Cell)

/-- `df[name] = vals`: overwrite the column in place when the name
already exists, otherwise append it on the right (pandas column
assignment). -/
def Frame.setCol (f : Frame) (name : String) (vals : List Cell) : Frame :=
  if name ∈ f.columns then
    ⟨f.columns,
      (f.cells.zip vals).map
        (fun rv => rv.1.set (f.columns.findIdx (fun c => c == name)) rv.2)⟩
  else ⟨f.columns ++ [name], (f.cells.zip vals).map (fun rv => rv.1 ++ [rv.2])⟩

/-- The data frame a `Csv` denotes: every cell as text. -/
def Csv.toFrame (t : Csv) : Frame :=
  ⟨t.columns, t.rows.map (List.map Cell.str)⟩

/-- Observable outcome of a successful `analyze` run: the written table
and its path, the optional image path, and the printed diagnostic. -/
structure Output where
  path : String
  frame : Frame
  image : Option String
  notices : List String

/-- The diagnostic printed for systems that are not binary or ternary. -/
def skipNotice : String :=
  "Plotting supported only for binary/ternary systems. Skipping."

/-- The output table of a successful run: the input frame with the two
computed columns assigned (`df_out` in the source).  The source rebuilds
each row's entry with exactly the expressions `load_entries` used, so
the diagram's own entry list is evaluated. -/
noncomputable def resultFrame (df : Csv) (pd : List Entry) : Frame :=
  ((Csv.toFrame df).setCol "formation_energy_per_atom_eV"
      (pd.map (fun e => Cell.real ((formEnergyPerAtom pd e : ℚ) : ℝ)))).setCol
    "distance_to_hull_eV" (pd.map (fun e => Cell.real (eAboveHull pd e)))

/-- `analyze` from `hull.py`: load the table and entries, build the
phase diagram, evaluate formation energy and distance to hull for every
row, assign the two result columns, write the table to `outCsv`, and
plot only two- or three-element systems. -/
noncomputable def analyze (t : Csv) (outCsv : String) (plotPath : Option String) :
    Except Err Output :=
  match load_entries t with
  | .error e => .error e
  | .ok (df, es) =>
    match buildPhaseDiagram es with
    | .error e => .error e
    | .ok pd =>
      match plotPath with
      | none => .ok ⟨outCsv, resultFrame df pd, none, []⟩
      | some p =>
        if (systemElements es).length = 2 ∨ (systemElements es).length = 3 then
          .ok ⟨outCsv, resultFrame df pd, some p, []⟩
        else .ok ⟨outCsv, resultFrame df pd, none, [skipNotice]⟩

/-! ### Concrete inputs used by witnesses and counterexamples -/

/-- Pure-element composition `A`. -/
def compA : Composition := ⟨[("A", 1)]⟩

/-- Pure-element composition `B`. -/
def compB : Composition := ⟨[("B", 1)]⟩

/-- The two-atom compound composition `AB`. -/
def compAB : Composition := ⟨[("A", 1), ("B", 1)]⟩

/-- The spec's concrete binary scenario: `A` and `B` at 0.0 and two `AB`
rows at -1.0 and -0.5 eV/atom. -/
def csvC3 : Csv :=
  ⟨["composition", "energy_per_atom_eV"],
   [["A", "0.0"], ["B", "0.0"], ["AB", "-1.0"], ["AB", "-0.5"]]⟩

/-- A table whose single row has a NaN energy cell. -/
def csvNan : Csv := ⟨["composition", "energy_per_atom_eV"], [["AB", "nan"]]⟩

/-- A table containing only the compound `AB`: no elemental references. -/
def csvNoRef : Csv := ⟨["composition", "energy_per_atom_eV"], [["AB", "-1.0"]]⟩

/-- The spec's single-element scenario: pure `A` at 0.2, 0.0 and 0.1. -/
def csvMonoA : Csv :=
  ⟨["composition", "energy_per_atom_eV"], [["A", "0.2"], ["A", "0.0"], ["A", "0.1"]]⟩

/-- A valid input that already carries a column named
`distance_to_hull_eV`. -/
def csvPreDist : Csv :=
  ⟨["composition", "energy_per_atom_eV", "distance_to_hull_eV"], [["A", "0.0", "99"]]⟩

/-- A valid input that already carries a column named
`formation_energy_per_atom_eV`. -/
def csvPreForm : Csv :=
  ⟨["composition", "energy_per_atom_eV", "formation_energy_per_atom_eV"],
   [["A", "0.0", "77"]]⟩

/-- The entries `load_entries` builds from `csvC3`. -/
def esC3 : List PDEntry :=
  [⟨compA, .fin 0⟩, ⟨compB, .fin 0⟩, ⟨compAB, .fin (-1)⟩, ⟨compAB, .fin (-1/2)⟩]

/-- The frozen diagram entries built from `csvC3`. -/
def pdC3 : List Entry :=
  [⟨compA, 0⟩, ⟨compB, 0⟩, ⟨compAB, -1⟩, ⟨compAB, -1/2⟩]

/-- A one-entry system: pure `A` at energy 0. -/
def pdMono : List Entry := [⟨compA, 0⟩]

/-- An input table lacking the energy column. -/
def csvMissing : Csv := ⟨["composition"], []⟩

/-- The entries `load_entries` builds from a table with the single pure
entry `A` at energy 0. -/
def esMono : List PDEntry := [⟨compA, .fin 0⟩]

/-- The weight function putting all mass on index `j`. -/
def singleW (j : ℕ) : ℕ → ℝ := fun i => if i = j then 1 else 0

/-- The entries `load_entries` builds from `csvMonoA`. -/
def esMonoA : List PDEntry :=
  [⟨compA, .fin (2 / 10)⟩, ⟨compA, .fin 0⟩, ⟨compA, .fin (1 / 10)⟩]

/-- The frozen diagram entries built from `csvMonoA`. -/
def pdMonoA : List Entry := [⟨compA, 2 / 10⟩, ⟨compA, 0⟩, ⟨compA, 1 / 10⟩]

/-- The entries `load_entries` builds from `csvNoRef`. -/
def esNoRef : List PDEntry := [⟨compAB, .fin (-1)⟩]

/-! ### Lemmas about the pipeline plumbing -/

theorem exMap_ok_length {α β : Type _} (f : α → Except Err β) :
    ∀ (l : List α) (r : List β), exMap f l = .ok r → r.length = l.length := by
  intro l
  induction l with
  | nil =>
    intro r h
    simp only [exMap] at h
    cases h
    rfl
  | cons a t ih =>
    intro r h
    simp only [exMap] at h
    cases hfa : f a with
    | error e => simp [hfa] at h
    | ok b =>
      cases hmt : exMap f t with
      | error e => simp [hfa, hmt] at h
      | ok bs =>
        simp [hfa, hmt] at h
        subst h
        simp [ih bs hmt]

theorem exMap_ok_getD {α β : Type _} (f : α → Except Err β) (da : α) (db : β) :
    ∀ (l : List α) (r : List β), exMap f l = .ok r →
      ∀ i, i < l.length → f (l.getD i da) = .ok (r.getD i db) := by
  intro l
  induction l with
  | nil => intro r _ i hi; simp at hi
  | cons a t ih =>
    intro r h i hi
    simp only [exMap] at h
    cases hfa : f a with
    | error e => simp [hfa] at h
    | ok b =>
      cases hmt : exMap f t with
      | error e => simp [hfa, hmt] at h
      | ok bs =>
        simp [hfa, hmt] at h
        subst h
        cases i with
        | zero => simpa using hfa
        | succ j =>
          simp only [List.getD_cons_succ]
          exact ih bs hmt j (by simpa using hi)

theorem exMap_ok_of_all {α β : Type _} (f : α → Except Err β) :
    ∀ (l : List α), (∀ a ∈ l, ∃ b, f a = .ok b) → ∃ r, exMap f l = .ok r := by
  intro l
  induction l with
  | nil => intro _; exact ⟨[], rfl⟩
  | cons a t ih =>
    intro hall
    obtain ⟨b, hb⟩ := hall a (by simp)
    obtain ⟨bs, hbs⟩ := ih (fun x hx => hall x (by simp [hx]))
    exact ⟨b :: bs, by simp [exMap, hb, hbs]⟩

theorem mem_union_foldl (xs : List String) :
    ∀ (acc : List String) (el : String), el ∈ acc ∨ el ∈ xs →
      el ∈ xs.foldl (fun a x => if x ∈ a then a else a ++ [x]) acc := by
  induction xs with
  | nil => intro acc el h; simpa using h
  | cons x t ih =>
    intro acc el h
    simp only [List.foldl_cons]
    apply ih
    by_cases hx : x ∈ acc
    · simp only [if_pos hx]
      rcases h with h | h
      · exact Or.inl h
      · rcases List.mem_cons.mp h with rfl | h
        · exact Or.inl hx
        · exact Or.inr h
    · simp only [if_neg hx]
      rcases h with h | h
      · exact Or.inl (List.mem_append_left _ h)
      · rcases List.mem_cons.mp h with rfl | h
        · exact Or.inl (List.mem_append_right _ (by simp))
        · exact Or.inr h

theorem mem_sysfold (es : List PDEntry) :
    ∀ (acc : List String) (el : String),
      el ∈ acc ∨ (∃ e ∈ es, el ∈ e.comp.elems) →
      el ∈ es.foldl
        (fun acc e => e.comp.elems.foldl (fun a x => if x ∈ a then a else a ++ [x]) acc)
        acc := by
  induction es with
  | nil => intro acc el h; simpa using h
  | cons f t ih =>
    intro acc el h
    simp only [List.foldl_cons]
    apply ih
    rcases h with h | ⟨e, he, hel⟩
    · exact Or.inl (mem_union_foldl _ _ _ (Or.inl h))
    · rcases List.mem_cons.mp he with rfl | he
      · exact Or.inl (mem_union_foldl _ _ _ (Or.inr hel))
      · exact Or.inr ⟨e, he, hel⟩

theorem mem_systemElements_of {es : List PDEntry} {e : PDEntry} {el : String}
    (he : e ∈ es) (hel : el ∈ e.comp.elems) : el ∈ systemElements es :=
  mem_sysfold es [] el (Or.inr ⟨e, he, hel⟩)

theorem foldl_min_le_init : ∀ (l : List ℚ) (a : ℚ), l.foldl min a ≤ a := by
  intro l
  induction l with
  | nil => intro a; simp
  | cons x t ih =>
    intro a
    simp only [List.foldl_cons]
    exact le_trans (ih (min a x)) (min_le_left a x)

theorem foldl_min_le_mem : ∀ (l : List ℚ) (a q : ℚ), q ∈ l → l.foldl min a ≤ q := by
  intro l
  induction l with
  | nil => intro a q h; simp at h
  | cons x t ih =>
    intro a q h
    simp only [List.foldl_cons]
    rcases List.mem_cons.mp h with rfl | h
    · exact le_trans (foldl_min_le_init t (min a q)) (min_le_right a q)
    · exact ih (min a x) q h

theorem le_foldl_min :
    ∀ (l : List ℚ) (a b : ℚ), b ≤ a → (∀ q ∈ l, b ≤ q) → b ≤ l.foldl min a := by
  intro l
  induction l with
  | nil => intro a b h _; simpa using h
  | cons x t ih =>
    intro a b ha hl
    simp only [List.foldl_cons]
    exact ih (min a x) b (le_min ha (hl x (by simp))) (fun q hq => hl q (by simp [hq]))

theorem minList_eq_of {l : List ℚ} {q : ℚ} (hq : q ∈ l) (hmin : ∀ x ∈ l, q ≤ x) :
    minList l = q := by
  cases l with
  | nil => simp at hq
  | cons a t =>
    simp only [minList]
    apply le_antisymm
    · rcases List.mem_cons.mp hq with rfl | h
      · exact foldl_min_le_init t q
      · exact foldl_min_le_mem t a q h
    · exact le_foldl_min t a q (hmin a (by simp)) (fun x hx => hmin x (by simp [hx]))

theorem isElement_iff {c : Composition} {el : String} :
    c.isElement el = true ↔ ∃ a : ℚ, 0 < a ∧ c.amounts = [(el, a)] := by
  rcases c with ⟨amounts⟩
  cases amounts with
  | nil => simp [Composition.isElement]
  | cons p t =>
    cases t with
    | nil =>
      rcases p with ⟨e, a⟩
      simp only [Composition.isElement, Bool.and_eq_true, beq_iff_eq, decide_eq_true_eq]
      constructor
      · rintro ⟨rfl, ha⟩
        exact ⟨a, ha, rfl⟩
      · rintro ⟨b, hb, hlist⟩
        rw [List.cons.injEq, Prod.mk.injEq] at hlist
        obtain ⟨⟨he1, he2⟩, -⟩ := hlist
        subst he1
        subst he2
        exact ⟨rfl, hb⟩
    | cons q t2 => simp [Composition.isElement]

theorem elems_of_isElement {c : Composition} {el : String} (h : c.isElement el = true) :
    c.elems = [el] := by
  obtain ⟨a, -, hc⟩ := isElement_iff.mp h
  simp [Composition.elems, hc]

theorem frac_self_of_isElement {c : Composition} {el : String} (h : c.isElement el = true) :
    c.frac el = 1 := by
  obtain ⟨a, ha, hc⟩ := isElement_iff.mp h
  simp only [Composition.frac, Composition.amt, Composition.natoms, hc, List.find?,
    beq_self_eq_true, Option.map_some, Option.getD_some, List.map_cons, List.map_nil,
    List.sum_cons, List.sum_nil, add_zero]
  exact div_self ha.ne'

/-! ### Claim theorems: error handling and references -/

/-- C8: an input table lacking the `composition` column or the
`energy_per_atom_eV` column fails at loading with the missing-column
error, before any entry is constructed and before any hull work, and
`analyze` produces no output for any target paths. -/
theorem C8_missing_column_aborts (t : Csv)
    (h : ¬("composition" ∈ t.columns ∧ "energy_per_atom_eV" ∈ t.columns)) :
    load_entries t = .error .missingColumnError ∧
      ∀ o p, analyze t o p = .error .missingColumnError := by
  have hl : load_entries t = .error .missingColumnError := by
    rw [load_entries, if_neg h]
  exact ⟨hl, fun o p => by simp [analyze, hl]⟩

/-- C8 witness: a table whose header has only `composition`. -/
theorem C8_missing_column_aborts_witness :
    ¬(("composition" : String) ∈ csvMissing.columns ∧
        ("energy_per_atom_eV" : String) ∈ csvMissing.columns) ∧
      load_entries csvMissing = .error .missingColumnError ∧
      analyze csvMissing "out.csv" none = .error .missingColumnError :=
  ⟨by decide,
    (C8_missing_column_aborts csvMissing (by decide)).1,
    (C8_missing_column_aborts csvMissing (by decide)).2 "out.csv" none⟩

/-- C4: if some entry's composition contains an element with no
pure-element entry anywhere in the set, the phase-diagram build fails
with the missing-elemental-reference error, and any run whose loading
produced these entries aborts with that error, producing no output
table. -/
theorem C4_missing_reference_aborts (es : List PDEntry) (e : PDEntry) (el : String)
    (he : e ∈ es) (hel : el ∈ e.comp.elems)
    (hnoref : ∀ x ∈ es, x.comp.isElement el = false) :
    buildPhaseDiagram es = .error .missingElementalReferenceError ∧
      ∀ t o p, load_entries t = .ok (t, es) →
        analyze t o p = .error .missingElementalReferenceError := by
  have hmem : el ∈ systemElements es := mem_systemElements_of he hel
  have hcond :
      ¬((systemElements es).all (fun el => es.any (fun e => e.comp.isElement el)) = true) := by
    intro hall
    rw [List.all_eq_true] at hall
    have h2 := hall el hmem
    rw [List.any_eq_true] at h2
    obtain ⟨x, hx, hpx⟩ := h2
    rw [hnoref x hx] at hpx
    exact Bool.noConfusion hpx
  have hb : buildPhaseDiagram es = .error .missingElementalReferenceError := by
    rw [buildPhaseDiagram, if_neg hcond]
  exact ⟨hb, fun t o p hlt => by simp [analyze, hlt, hb]⟩

/-- C4 witness: the table containing only the compound `AB`. -/
theorem C4_missing_reference_aborts_witness :
    ((⟨compAB, .fin (-1)⟩ : PDEntry) ∈ esNoRef ∧ "A" ∈ compAB.elems ∧
        load_entries csvNoRef = .ok (csvNoRef, esNoRef)) ∧
      buildPhaseDiagram esNoRef = .error .missingElementalReferenceError ∧
      analyze csvNoRef "out.csv" none = .error .missingElementalReferenceError :=
  ⟨⟨of_decide_eq_true (by with_unfolding_all rfl), by decide, by with_unfolding_all rfl⟩,
    (C4_missing_reference_aborts esNoRef ⟨compAB, .fin (-1)⟩ "A"
      (of_decide_eq_true (by with_unfolding_all rfl)) (by decide)
      (of_decide_eq_true (by with_unfolding_all rfl))).1,
    (C4_missing_reference_aborts esNoRef ⟨compAB, .fin (-1)⟩ "A"
      (of_decide_eq_true (by with_unfolding_all rfl)) (by decide)
      (of_decide_eq_true (by with_unfolding_all rfl))).2 csvNoRef "out.csv" none
      (by with_unfolding_all rfl)⟩

/-- C5 counterexample: a row whose energy cell is NaN is accepted by
`load_entries` — entry-set construction succeeds and raises no error at
all, so in particular it does not fail with `InvalidEnergyError`. -/
theorem C5_counterexample_nan_accepted :
    load_entries csvNan = .ok (csvNan, [⟨compAB, EnergyVal.nan⟩]) ∧
      ∀ err : Err, load_entries csvNan ≠ .error err := by
  have h : load_entries csvNan = .ok (csvNan, [⟨compAB, EnergyVal.nan⟩]) := by
    with_unfolding_all rfl
  exact ⟨h, fun err he => by rw [h] at he; exact Except.noConfusion he⟩

/-- C5 amended: entry-set construction performs no finiteness check:
whenever the two required columns are present and every row's
composition and energy cells parse — finite or not — `load_entries`
succeeds, building exactly one entry per row (rows with NaN or infinite
energies included). -/
theorem C5_no_finiteness_check (t : Csv)
    (hc : "composition" ∈ t.columns ∧ "energy_per_atom_eV" ∈ t.columns)
    (hrows : ∀ row ∈ t.rows, ∃ e, rowParse t row = .ok e) :
    ∃ es, load_entries t = .ok (t, es) ∧ es.length = t.rows.length ∧
      ∀ i < t.rows.length,
        rowParse t (t.rows.getD i []) = .ok (es.getD i ⟨⟨[]⟩, .nan⟩) := by
  obtain ⟨es, hes⟩ := exMap_ok_of_all _ _ hrows
  refine ⟨es, ?_, exMap_ok_length _ _ _ hes, fun i hi => exMap_ok_getD _ _ _ _ _ hes i hi⟩
  rw [load_entries, if_pos hc, hes]
  rfl

/-- C5 amended witness: the NaN-energy table is loaded successfully. -/
theorem C5_no_finiteness_check_witness :
    (("composition" : String) ∈ csvNan.columns ∧
        ("energy_per_atom_eV" : String) ∈ csvNan.columns) ∧
      ∃ es, load_entries csvNan = .ok (csvNan, es) ∧ es.length = csvNan.rows.length ∧
        ∀ i < csvNan.rows.length,
          rowParse csvNan (csvNan.rows.getD i []) = .ok (es.getD i ⟨⟨[]⟩, .nan⟩) :=
  ⟨by decide,
    C5_no_finiteness_check csvNan (by decide)
      (by
        intro row hrow
        simp only [csvNan, List.mem_singleton] at hrow
        subst hrow
        exact ⟨⟨compAB, .nan⟩, by with_unfolding_all rfl⟩)⟩

/-! ### Lemmas about the hull model -/

theorem singleW_comboOn (L : List Entry) (j : ℕ) (hj : j < L.length) (c : Composition)
    (hc : (L.getD j dEntry).comp = c) : ComboOn L (singleW j) c := by
  refine ⟨?_, ?_, ?_, ?_⟩
  · intro i
    rw [singleW]
    split <;> norm_num
  · intro i hi
    rw [singleW]
    rw [if_neg]
    omega
  · rw [show (∑ i in Finset.range L.length, singleW j i) =
        ∑ i in Finset.range L.length, if i = j then (1 : ℝ) else 0 from rfl]
    rw [Finset.sum_ite_eq' (Finset.range L.length) j (fun _ => (1 : ℝ))]
    rw [if_pos (Finset.mem_range.mpr hj)]
  · intro el
    have hterm : ∀ i ∈ Finset.range L.length,
        singleW j i * ((L.getD i dEntry).comp.frac el : ℝ) =
          if i = j then ((L.getD i dEntry).comp.frac el : ℝ) else 0 := by
      intro i _
      rw [singleW]
      split <;> simp
    rw [Finset.sum_congr rfl hterm,
      Finset.sum_ite_eq' (Finset.range L.length) j
        (fun i => ((L.getD i dEntry).comp.frac el : ℝ)),
      if_pos (Finset.mem_range.mpr hj), hc]

theorem singleW_value (L : List Entry) (j : ℕ) (hj : j < L.length) :
    comboValue L (singleW j) = ((L.getD j dEntry).epa : ℝ) := by
  have hterm : ∀ i ∈ Finset.range L.length,
      singleW j i * (((L.getD i dEntry).epa : ℚ) : ℝ) =
        if i = j then (((L.getD i dEntry).epa : ℚ) : ℝ) else 0 := by
    intro i _
    rw [singleW]
    split <;> simp
  rw [comboValue, Finset.sum_congr rfl hterm,
    Finset.sum_ite_eq' (Finset.range L.length) j
      (fun i => (((L.getD i dEntry).epa : ℚ) : ℝ)),
    if_pos (Finset.mem_range.mpr hj)]

theorem epa_mem_hullValues (L : List Entry) (e : Entry) (he : e ∈ L) :
    ((e.epa : ℚ) : ℝ) ∈ hullValues L e.comp := by
  obtain ⟨j, hj, hgj⟩ := List.mem_iff_getElem.mp he
  have hget : L.getD j dEntry = e := by rw [List.getD_eq_getElem L dEntry hj, hgj]
  exact ⟨singleW j, singleW_comboOn L j hj e.comp (by rw [hget]),
    by rw [singleW_value L j hj, hget]⟩

theorem hullValues_bddBelow (L : List Entry) (c : Composition) :
    BddBelow (hullValues L c) := by
  refine ⟨-(∑ i in Finset.range L.length, |(((L.getD i dEntry).epa : ℚ) : ℝ)|), ?_⟩
  rintro v ⟨w, ⟨hpos, hz, hsum, hfrac⟩, rfl⟩
  have hb : ∀ i ∈ Finset.range L.length,
      -|(((L.getD i dEntry).epa : ℚ) : ℝ)| ≤ w i * (((L.getD i dEntry).epa : ℚ) : ℝ) := by
    intro i hi
    have h1 : w i ≤ 1 := by
      have h2 := Finset.single_le_sum (f := w) (fun j _ => hpos j) hi
      rw [hsum] at h2
      exact h2
    have h3 := neg_abs_le (((L.getD i dEntry).epa : ℚ) : ℝ)
    have h4 := abs_nonneg (((L.getD i dEntry).epa : ℚ) : ℝ)
    nlinarith [mul_le_mul_of_nonneg_left h3 (hpos i)]
  have hs := Finset.sum_le_sum hb
  rw [comboValue]
  calc -(∑ i in Finset.range L.length, |(((L.getD i dEntry).epa : ℚ) : ℝ)|)
      = ∑ i in Finset.range L.length, -|(((L.getD i dEntry).epa : ℚ) : ℝ)| := by
        rw [Finset.sum_neg_distrib]
    _ ≤ ∑ i in Finset.range L.length, w i * (((L.getD i dEntry).epa : ℚ) : ℝ) := hs

theorem hullEnergy_le_epa (L : List Entry) (e : Entry) (he : e ∈ L) :
    hullEnergy L e.comp ≤ ((e.epa : ℚ) : ℝ) :=
  csInf_le (hullValues_bddBelow L e.comp) (epa_mem_hullValues L e he)

theorem eAboveHull_nonneg (L : List Entry) (e : Entry) (he : e ∈ L) :
    0 ≤ eAboveHull L e := by
  rw [eAboveHull]
  linarith [hullEnergy_le_epa L e he]

theorem comboValue_eq_of_vertex (L : List Entry) (e : Entry) (hv : IsHullVertex L e)
    (w : ℕ → ℝ) (hw : ComboOn L w e.comp) (hle : comboValue L w ≤ ((e.epa : ℚ) : ℝ)) :
    comboValue L w = ((e.epa : ℚ) : ℝ) := by
  obtain ⟨hvm, hvp⟩ := hv
  have hzero := hvp w hw hle
  obtain ⟨hpos, hz, hsum, hfrac⟩ := hw
  have hterm : ∀ i ∈ Finset.range L.length,
      w i * (((L.getD i dEntry).epa : ℚ) : ℝ) = w i * ((e.epa : ℚ) : ℝ) := by
    intro i hi
    by_cases hie : L.getD i dEntry = e
    · rw [hie]
    · rw [hzero i (Finset.mem_range.mp hi) hie]
      ring
  rw [comboValue, Finset.sum_congr rfl hterm, ← Finset.sum_mul, hsum, one_mul]

theorem hullEnergy_eq_of_vertex (L : List Entry) (e : Entry) (hv : IsHullVertex L e) :
    hullEnergy L e.comp = ((e.epa : ℚ) : ℝ) := by
  apply le_antisymm (hullEnergy_le_epa L e hv.1)
  apply le_csInf ⟨_, epa_mem_hullValues L e hv.1⟩
  rintro v ⟨w, hw, rfl⟩
  by_cases h : ((e.epa : ℚ) : ℝ) ≤ comboValue L w
  · exact h
  · rw [comboValue_eq_of_vertex L e hv w hw (le_of_not_le h)]

/-- C1: every entry of a successfully built phase diagram has a distance
to hull of at least the small negative tolerance (the exact model gives
0 as lower bound), and every hull-vertex entry has distance exactly 0. -/
theorem C1_distance_nonneg_vertex_zero (es : List PDEntry) (L : List Entry) (e : Entry)
    (hB : buildPhaseDiagram es = .ok L) (he : e ∈ L) :
    -(1 / 1000000000 : ℝ) ≤ eAboveHull L e ∧
      (IsHullVertex L e → eAboveHull L e = 0) := by
  constructor
  · have h := eAboveHull_nonneg L e he
    linarith
  · intro hv
    rw [eAboveHull, hullEnergy_eq_of_vertex L e hv]
    ring

/-- C1 witness: the one-entry diagram of pure `A` at energy 0. -/
theorem C1_distance_nonneg_vertex_zero_witness :
    (buildPhaseDiagram esMono = .ok pdMono ∧ (⟨compA, 0⟩ : Entry) ∈ pdMono) ∧
      -(1 / 1000000000 : ℝ) ≤ eAboveHull pdMono ⟨compA, 0⟩ ∧
        (IsHullVertex pdMono ⟨compA, 0⟩ → eAboveHull pdMono ⟨compA, 0⟩ = 0) :=
  ⟨⟨by with_unfolding_all rfl, of_decide_eq_true (by with_unfolding_all rfl)⟩,
    C1_distance_nonneg_vertex_zero esMono pdMono ⟨compA, 0⟩ (by with_unfolding_all rfl)
      (of_decide_eq_true (by with_unfolding_all rfl))⟩

theorem getD_append_len (L : List Entry) (new : Entry) :
    (L ++ [new]).getD L.length dEntry = new := by
  rw [List.getD_append_right L [new] dEntry L.length le_rfl]
  simp

theorem comboOn_append (L : List Entry) (new : Entry) (c : Composition) (w : ℕ → ℝ)
    (hw : ComboOn L w c) :
    ComboOn (L ++ [new]) w c ∧ comboValue (L ++ [new]) w = comboValue L w := by
  obtain ⟨hpos, hz, hsum, hfrac⟩ := hw
  have hn : (L ++ [new]).length = L.length + 1 := by simp
  have hwn : w L.length = 0 := hz _ le_rfl
  have hgl : ∀ i ∈ Finset.range L.length,
      (L ++ [new]).getD i dEntry = L.getD i dEntry := by
    intro i hi
    exact List.getD_append L [new] dEntry i (Finset.mem_range.mp hi)
  refine ⟨⟨hpos, ?_, ?_, ?_⟩, ?_⟩
  · intro i hi
    rw [hn] at hi
    exact hz i (by omega)
  · rw [hn, Finset.sum_range_succ, hwn, add_zero, hsum]
  · intro el
    rw [hn, Finset.sum_range_succ, hwn, zero_mul, add_zero, ← hfrac el]
    apply Finset.sum_congr rfl
    intro i hi
    rw [hgl i hi]
  · rw [comboValue, comboValue, hn, Finset.sum_range_succ, hwn, zero_mul, add_zero]
    apply Finset.sum_congr rfl
    intro i hi
    rw [hgl i hi]

theorem comboOn_replace (L : List Entry) (new dup : Entry) (j : ℕ) (hj : j < L.length)
    (hgj : L.getD j dEntry = dup) (hcomp : new.comp = dup.comp) (c : Composition)
    (w : ℕ → ℝ) (hw : ComboOn (L ++ [new]) w c) :
    ComboOn L (fun i => if i = L.length then 0 else w i + if i = j then w L.length else 0) c ∧
      comboValue L
          (fun i => if i = L.length then 0 else w i + if i = j then w L.length else 0) =
        comboValue (L ++ [new]) w + w L.length * ((dup.epa : ℝ) - (new.epa : ℝ)) := by
  obtain ⟨hpos, hz, hsum, hfrac⟩ := hw
  have hn : (L ++ [new]).length = L.length + 1 := by simp
  rw [hn] at hsum
  have hjn : j ≠ L.length := by omega
  have hgl : ∀ i ∈ Finset.range L.length,
      (L ++ [new]).getD i dEntry = L.getD i dEntry := by
    intro i hi
    exact List.getD_append L [new] dEntry i (Finset.mem_range.mp hi)
  have hitenn : ∀ i ∈ Finset.range L.length,
      (if i = L.length then (0 : ℝ) else w i + if i = j then w L.length else 0) =
        w i + if i = j then w L.length else 0 := by
    intro i hi
    rw [if_neg]
    have := Finset.mem_range.mp hi
    omega
  refine ⟨⟨?_, ?_, ?_, ?_⟩, ?_⟩
  · intro i
    show (0 : ℝ) ≤ if i = L.length then 0 else w i + if i = j then w L.length else 0
    by_cases h1 : i = L.length
    · simp [h1]
    · rw [if_neg h1]
      have h2 := hpos i
      have h3 := hpos L.length
      split <;> linarith
  · intro i hi
    show (if i = L.length then (0 : ℝ) else w i + if i = j then w L.length else 0) = 0
    rcases Nat.eq_or_lt_of_le hi with h1 | h1
    · rw [if_pos h1.symm]
    · rw [if_neg (by omega), if_neg (by omega),
        hz i (by simp only [List.length_append, List.length_cons, List.length_nil]; omega),
        add_zero]
  · show (∑ i in Finset.range L.length,
        if i = L.length then (0 : ℝ) else w i + if i = j then w L.length else 0) = 1
    rw [Finset.sum_congr rfl hitenn, Finset.sum_add_distrib,
      Finset.sum_ite_eq' (Finset.range L.length) j (fun _ => w L.length),
      if_pos (Finset.mem_range.mpr hj), ← Finset.sum_range_succ, hsum]
  · intro el
    show (∑ i in Finset.range L.length,
        (if i = L.length then (0 : ℝ) else w i + if i = j then w L.length else 0) *
          ((L.getD i dEntry).comp.frac el : ℝ)) = (c.frac el : ℝ)
    rw [Finset.sum_congr rfl (fun i hi => by rw [hitenn i hi])]
    have hterm : ∀ i ∈ Finset.range L.length,
        (w i + if i = j then w L.length else 0) * ((L.getD i dEntry).comp.frac el : ℝ) =
          w i * (((L ++ [new]).getD i dEntry).comp.frac el : ℝ) +
            (if i = j then w L.length * ((L.getD i dEntry).comp.frac el : ℝ) else 0) := by
      intro i hi
      rw [hgl i hi]
      split <;> ring
    rw [Finset.sum_congr rfl hterm, Finset.sum_add_distrib,
      Finset.sum_ite_eq' (Finset.range L.length) j
        (fun i => w L.length * ((L.getD i dEntry).comp.frac el : ℝ)),
      if_pos (Finset.mem_range.mpr hj), hgj]
    have hfr : ((dup.comp.frac el : ℚ) : ℝ) = ((new.comp.frac el : ℚ) : ℝ) := by rw [hcomp]
    rw [hfr, ← hfrac el, hn, Finset.sum_range_succ, getD_append_len,
      Finset.sum_congr rfl (fun i hi => by rw [hgl i hi])]
  · rw [comboValue, comboValue]
    show (∑ i in Finset.range L.length,
        (if i = L.length then (0 : ℝ) else w i + if i = j then w L.length else 0) *
          (((L.getD i dEntry).epa : ℚ) : ℝ)) = _
    rw [Finset.sum_congr rfl (fun i hi => by rw [hitenn i hi])]
    have hterm : ∀ i ∈ Finset.range L.length,
        (w i + if i = j then w L.length else 0) * (((L.getD i dEntry).epa : ℚ) : ℝ) =
          w i * ((((L ++ [new]).getD i dEntry).epa : ℚ) : ℝ) +
            (if i = j then w L.length * (((L.getD i dEntry).epa : ℚ) : ℝ) else 0) := by
      intro i hi
      rw [hgl i hi]
      split <;> ring
    rw [Finset.sum_congr rfl hterm, Finset.sum_add_distrib,
      Finset.sum_ite_eq' (Finset.range L.length) j
        (fun i => w L.length * (((L.getD i dEntry).epa : ℚ) : ℝ)),
      if_pos (Finset.mem_range.mpr hj), hgj, hn, Finset.sum_range_succ, getD_append_len]
    ring

theorem hullValues_subset_append (L : List Entry) (new : Entry) (c : Composition) :
    hullValues L c ⊆ hullValues (L ++ [new]) c := by
  rintro v ⟨w, hw, rfl⟩
  obtain ⟨hw2, hv2⟩ := comboOn_append L new c w hw
  exact ⟨w, hw2, hv2.symm⟩

theorem hullValues_append_dominated (L : List Entry) (new dup : Entry) (j : ℕ)
    (hj : j < L.length) (hgj : L.getD j dEntry = dup) (hcomp : new.comp = dup.comp)
    (hle : dup.epa ≤ new.epa) (c : Composition) :
    ∀ v ∈ hullValues (L ++ [new]) c, ∃ v2 ∈ hullValues L c, v2 ≤ v := by
  rintro v ⟨w, hw, rfl⟩
  obtain ⟨hw2, hv2⟩ := comboOn_replace L new dup j hj hgj hcomp c w hw
  refine ⟨_, ⟨_, hw2, rfl⟩, ?_⟩
  rw [hv2]
  have h0 : 0 ≤ w L.length := hw.1 L.length
  have hdn : ((dup.epa : ℚ) : ℝ) ≤ ((new.epa : ℚ) : ℝ) := by exact_mod_cast hle
  have hmul := mul_nonpos_of_nonneg_of_nonpos h0 (by linarith :
    ((dup.epa : ℚ) : ℝ) - ((new.epa : ℚ) : ℝ) ≤ 0)
  linarith

theorem hullEnergy_append_eq (L : List Entry) (new dup : Entry)
    (hdup : dup ∈ L) (hcomp : new.comp = dup.comp) (hle : dup.epa ≤ new.epa)
    (c : Composition) : hullEnergy (L ++ [new]) c = hullEnergy L c := by
  obtain ⟨j, hj, hgj2⟩ := List.mem_iff_getElem.mp hdup
  have hgj : L.getD j dEntry = dup := by rw [List.getD_eq_getElem L dEntry hj, hgj2]
  by_cases hne : (hullValues L c).Nonempty
  · apply le_antisymm
    · apply le_csInf hne
      exact fun v hv =>
        csInf_le (hullValues_bddBelow _ _) (hullValues_subset_append L new c hv)
    · apply le_csInf (hne.mono (hullValues_subset_append L new c))
      intro v hv
      obtain ⟨v2, hv2, hle2⟩ :=
        hullValues_append_dominated L new dup j hj hgj hcomp hle c v hv
      exact le_trans (csInf_le (hullValues_bddBelow _ _) hv2) hle2
  · have hne2 : ¬(hullValues (L ++ [new]) c).Nonempty := by
      rintro ⟨v, hv⟩
      obtain ⟨v2, hv2, -⟩ :=
        hullValues_append_dominated L new dup j hj hgj hcomp hle c v hv
      exact hne ⟨v2, hv2⟩
    rw [hullEnergy, hullEnergy, Set.not_nonempty_iff_eq_empty.mp hne,
      Set.not_nonempty_iff_eq_empty.mp hne2]

theorem isHullVertex_append_iff (L : List Entry) (new dup : Entry)
    (hdup : dup ∈ L) (hcomp : new.comp = dup.comp)
    (hlt : ∀ x ∈ L, x.epa < new.epa) (e : Entry) :
    IsHullVertex (L ++ [new]) e ↔ IsHullVertex L e := by
  obtain ⟨j, hj, hgj2⟩ := List.mem_iff_getElem.mp hdup
  have hgj : L.getD j dEntry = dup := by rw [List.getD_eq_getElem L dEntry hj, hgj2]
  have hjlt : j < (L ++ [new]).length := by
    simp only [List.length_append, List.length_cons, List.length_nil]
    omega
  have hgj2 : (L ++ [new]).getD j dEntry = dup := by
    rw [List.getD_append L [new] dEntry j hj, hgj]
  have hdupnew : dup ≠ new := by
    intro hh
    have := hlt dup hdup
    rw [hh] at this
    exact lt_irrefl _ this
  constructor
  · rintro ⟨hm, hvp⟩
    have hmL : e ∈ L := by
      rcases List.mem_append.mp hm with h | h
      · exact h
      · exfalso
        have henew : e = new := by simpa using h
        have hco : ComboOn (L ++ [new]) (singleW j) e.comp := by
          rw [henew]
          exact singleW_comboOn (L ++ [new]) j hjlt new.comp (by rw [hgj2, hcomp])
        have hlej : comboValue (L ++ [new]) (singleW j) ≤ ((e.epa : ℚ) : ℝ) := by
          rw [henew, singleW_value _ j hjlt, hgj2]
          exact_mod_cast (hlt dup hdup).le
        have h0 := hvp (singleW j) hco hlej j hjlt (by rw [hgj2, henew]; exact hdupnew)
        rw [singleW] at h0
        simp at h0
    refine ⟨hmL, ?_⟩
    intro w hw hle i hi hne
    obtain ⟨hw2, hveq⟩ := comboOn_append L new e.comp w hw
    have hle2 : comboValue (L ++ [new]) w ≤ ((e.epa : ℚ) : ℝ) := by rw [hveq]; exact hle
    have hi2 : i < (L ++ [new]).length := by
      simp only [List.length_append, List.length_cons, List.length_nil]
      omega
    exact hvp w hw2 hle2 i hi2 (by rw [List.getD_append L [new] dEntry i hi]; exact hne)
  · rintro ⟨hmL, hvp⟩
    have henew : e ≠ new := by
      intro hh
      have := hlt e hmL
      rw [hh] at this
      exact lt_irrefl _ this
    refine ⟨List.mem_append_left _ hmL, ?_⟩
    intro w hw hle i hi hnei
    obtain ⟨hw2, hv2⟩ := comboOn_replace L new dup j hj hgj hcomp e.comp w hw
    have hwn0 : w L.length = 0 := by
      by_contra hwn
      have hwnpos : 0 < w L.length := lt_of_le_of_ne (hw.1 L.length) (Ne.symm hwn)
      have hdlt : ((dup.epa : ℚ) : ℝ) < ((new.epa : ℚ) : ℝ) := by
        exact_mod_cast hlt dup hdup
      have hmul := mul_neg_of_pos_of_neg hwnpos (by linarith :
        ((dup.epa : ℚ) : ℝ) - ((new.epa : ℚ) : ℝ) < 0)
      have hvlt : comboValue L
          (fun i => if i = L.length then 0 else w i + if i = j then w L.length else 0) <
            comboValue (L ++ [new]) w := by
        rw [hv2]
        linarith
      have hle2 : comboValue L
          (fun i => if i = L.length then 0 else w i + if i = j then w L.length else 0) ≤
            ((e.epa : ℚ) : ℝ) := le_trans hvlt.le hle
      by_cases hdupe : dup = e
      · have hveq := comboValue_eq_of_vertex L e ⟨hmL, hvp⟩ _ hw2 hle2
        linarith
      · have hj0 := hvp _ hw2 hle2 j hj (by rw [hgj]; exact hdupe)
        have hjn : j ≠ L.length := by omega
        have hj0b : w j + w L.length = 0 := by simpa [hjn] using hj0
        have := hw.1 j
        linarith
    have hle2 : comboValue L
        (fun i => if i = L.length then 0 else w i + if i = j then w L.length else 0) ≤
          ((e.epa : ℚ) : ℝ) := by
      rw [hv2, hwn0]
      simpa using hle
    rcases Nat.lt_or_ge i L.length with hin | hin
    · have hnei2 : L.getD i dEntry ≠ e := by
        rw [List.getD_append L [new] dEntry i hin] at hnei
        exact hnei
      have h0 := hvp _ hw2 hle2 i hin hnei2
      have hineq : i ≠ L.length := by omega
      have h0b : w i + (if i = j then w L.length else 0) = 0 := by simpa [hineq] using h0
      rw [hwn0] at h0b
      simpa using h0b
    · have hieq : i = L.length := by
        simp only [List.length_append, List.length_cons, List.length_nil] at hi
        omega
      rw [hieq]
      exact hwn0

/-- C6: adding an entry whose composition duplicates an existing entry
and whose energy per atom is strictly above every existing entry leaves
the hull envelope unchanged at every composition, leaves the hull vertex
set unchanged, and leaves the distance to hull of every existing entry
unchanged. -/
theorem C6_higher_duplicate_no_change (L : List Entry) (new dup : Entry)
    (hdup : dup ∈ L) (hcomp : new.comp = dup.comp)
    (hlt : ∀ x ∈ L, x.epa < new.epa) :
    (∀ c, hullEnergy (L ++ [new]) c = hullEnergy L c) ∧
      (∀ e, IsHullVertex (L ++ [new]) e ↔ IsHullVertex L e) ∧
      ∀ e ∈ L, eAboveHull (L ++ [new]) e = eAboveHull L e := by
  have hle : dup.epa ≤ new.epa := (hlt dup hdup).le
  refine ⟨fun c => hullEnergy_append_eq L new dup hdup hcomp hle c,
    fun e => isHullVertex_append_iff L new dup hdup hcomp hlt e,
    fun e _ => ?_⟩
  rw [eAboveHull, eAboveHull, hullEnergy_append_eq L new dup hdup hcomp hle]

/-- C6 witness: pure `A` at 0 with a duplicate-composition entry at the
strictly higher energy 1. -/
theorem C6_higher_duplicate_no_change_witness :
    ((⟨compA, 0⟩ : Entry) ∈ pdMono ∧ (⟨compA, 1⟩ : Entry).comp = (⟨compA, 0⟩ : Entry).comp ∧
        (∀ x ∈ pdMono, x.epa < (⟨compA, 1⟩ : Entry).epa)) ∧
      (∀ c, hullEnergy (pdMono ++ [⟨compA, 1⟩]) c = hullEnergy pdMono c) ∧
        (∀ e, IsHullVertex (pdMono ++ [⟨compA, 1⟩]) e ↔ IsHullVertex pdMono e) ∧
        ∀ e ∈ pdMono, eAboveHull (pdMono ++ [⟨compA, 1⟩]) e = eAboveHull pdMono e :=
  ⟨⟨of_decide_eq_true (by with_unfolding_all rfl), rfl,
      of_decide_eq_true (by with_unfolding_all rfl)⟩,
    C6_higher_duplicate_no_change pdMono ⟨compA, 1⟩ ⟨compA, 0⟩
      (of_decide_eq_true (by with_unfolding_all rfl)) rfl
      (of_decide_eq_true (by with_unfolding_all rfl))⟩

theorem hullEnergy_pdC3 : hullEnergy pdC3 compAB = -(1 / 2 : ℝ) := by
  have hj : 2 < pdC3.length := by decide
  have hcomp : (pdC3.getD 2 dEntry).comp = compAB := rfl
  have hepa2 : (pdC3.getD 2 dEntry).epa = -1 / 2 := by with_unfolding_all rfl
  have hcombo := singleW_comboOn pdC3 2 hj compAB hcomp
  apply le_antisymm
  · refine csInf_le (hullValues_bddBelow _ _) ⟨singleW 2, hcombo, ?_⟩
    rw [singleW_value pdC3 2 hj, hepa2]
    norm_num
  · have hne : (hullValues pdC3 compAB).Nonempty :=
      ⟨comboValue pdC3 (singleW 2), ⟨singleW 2, hcombo, rfl⟩⟩
    apply le_csInf hne
    rintro v ⟨w, ⟨hpos, hz, hsum, hfrac⟩, rfl⟩
    have e0 : (pdC3.getD 0 dEntry).epa = 0 := by with_unfolding_all rfl
    have e1 : (pdC3.getD 1 dEntry).epa = 0 := by with_unfolding_all rfl
    have e3 : (pdC3.getD 3 dEntry).epa = -1 / 4 := by with_unfolding_all rfl
    rw [comboValue]
    rw [show pdC3.length = (4 : ℕ) from rfl] at hsum ⊢
    simp only [Finset.sum_range_succ, Finset.sum_range_zero] at hsum ⊢
    rw [e0, e1, hepa2, e3]
    push_cast
    linarith [hpos 0, hpos 1, hpos 2, hpos 3]

/-- C3 (code evaluation at the spec's concrete scenario): with rows
`A` 0.0, `B` 0.0, `AB` -1.0, `AB` -0.5, the code reports distance 0 for
the first `AB` row, but formation energy -0.5 (not the claimed -1.0) and
distance 0.25 (not the claimed 0.5) for the rows concerned, because
`load_entries` hands the per-atom value to `PDEntry` as a TOTAL energy,
which pymatgen divides by the 2 atoms of `AB`.  The -0.5 row is still
not a hull vertex. -/
theorem C3_scenario_code_divergence :
    load_entries csvC3 = .ok (csvC3, esC3) ∧
      buildPhaseDiagram esC3 = .ok pdC3 ∧
      eAboveHull pdC3 ⟨compAB, -1⟩ = 0 ∧
      formEnergyPerAtom pdC3 ⟨compAB, -1⟩ = -1 / 2 ∧
      eAboveHull pdC3 ⟨compAB, -1 / 2⟩ = 1 / 4 ∧
      ¬IsHullVertex pdC3 ⟨compAB, -1 / 2⟩ ∧
      formEnergyPerAtom pdC3 ⟨compAB, -1⟩ ≠ -1 ∧
      eAboveHull pdC3 ⟨compAB, -1 / 2⟩ ≠ 1 / 2 := by
  have hd3 : eAboveHull pdC3 ⟨compAB, -1⟩ = 0 := by
    show ((⟨compAB, -1⟩ : Entry).epa : ℝ) - hullEnergy pdC3 compAB = 0
    rw [hullEnergy_pdC3, show (⟨compAB, -1⟩ : Entry).epa = -1 / 2 from by with_unfolding_all rfl]
    push_cast
    ring
  have hd4 : eAboveHull pdC3 ⟨compAB, -1 / 2⟩ = 1 / 4 := by
    show ((⟨compAB, -1 / 2⟩ : Entry).epa : ℝ) - hullEnergy pdC3 compAB = 1 / 4
    rw [hullEnergy_pdC3,
      show (⟨compAB, -1 / 2⟩ : Entry).epa = -1 / 4 from by with_unfolding_all rfl]
    push_cast
    ring
  refine ⟨by with_unfolding_all rfl, by with_unfolding_all rfl, hd3,
    by with_unfolding_all rfl, hd4, ?_, ?_, ?_⟩
  · rintro ⟨-, hvp⟩
    have hj : 2 < pdC3.length := by decide
    have hcomp : (pdC3.getD 2 dEntry).comp = (⟨compAB, -1 / 2⟩ : Entry).comp := rfl
    have hle : comboValue pdC3 (singleW 2) ≤ (((⟨compAB, -1 / 2⟩ : Entry).epa : ℚ) : ℝ) := by
      rw [singleW_value pdC3 2 hj,
        show (pdC3.getD 2 dEntry).epa = -1 / 2 from by with_unfolding_all rfl,
        show (⟨compAB, -1 / 2⟩ : Entry).epa = -1 / 4 from by with_unfolding_all rfl]
      push_cast
      norm_num
    have hne : pdC3.getD 2 dEntry ≠ (⟨compAB, -1 / 2⟩ : Entry) :=
      of_decide_eq_true (by with_unfolding_all rfl)
    have h0 := hvp (singleW 2) (singleW_comboOn pdC3 2 hj _ hcomp) hle 2 hj hne
    rw [singleW] at h0
    simp at h0
  · intro h
    rw [show formEnergyPerAtom pdC3 ⟨compAB, -1⟩ = -1 / 2 from by with_unfolding_all rfl] at h
    norm_num at h
  · intro h
    rw [hd4] at h
    norm_num at h

/-- C2: an elemental reference entry (a lowest-energy pure-element entry
of its element) has formation energy per atom exactly 0. -/
theorem C2_reference_formation_zero (L : List Entry) (el : String) (e : Entry)
    (he : e ∈ L) (hpure : e.comp.isElement el = true)
    (hmin : ∀ x ∈ L, x.comp.isElement el = true → e.epa ≤ x.epa) :
    formEnergyPerAtom L e = 0 := by
  have helems : e.comp.elems = [el] := elems_of_isElement hpure
  have hfrac : e.comp.frac el = 1 := frac_self_of_isElement hpure
  have href : refEpa L el = e.epa := by
    rw [refEpa]
    apply minList_eq_of
    · exact List.mem_map_of_mem _ (List.mem_filter.mpr ⟨he, hpure⟩)
    · intro x hx
      obtain ⟨y, hy, rfl⟩ := List.mem_map.mp hx
      obtain ⟨hyL, hyp⟩ := List.mem_filter.mp hy
      exact hmin y hyL hyp
  rw [formEnergyPerAtom, helems]
  simp [hfrac, href]

/-- C2 witness: the pure-`A` reference of the one-entry system. -/
theorem C2_reference_formation_zero_witness :
    ((⟨compA, 0⟩ : Entry) ∈ pdMono ∧ compA.isElement "A" = true) ∧
      formEnergyPerAtom pdMono ⟨compA, 0⟩ = 0 :=
  ⟨⟨of_decide_eq_true (by with_unfolding_all rfl), by decide⟩,
    C2_reference_formation_zero pdMono "A" ⟨compA, 0⟩
      (of_decide_eq_true (by with_unfolding_all rfl)) (by decide)
      (of_decide_eq_true (by with_unfolding_all rfl))⟩

/-! ### Lemmas about the output frame and the reporting stage -/

theorem load_entries_ok_pieces (t df : Csv) (es : List PDEntry)
    (h : load_entries t = .ok (df, es)) :
    df = t ∧ exMap (rowParse t) t.rows = .ok es := by
  rw [load_entries] at h
  split at h
  · cases hm : exMap (rowParse t) t.rows with
    | error e => rw [hm] at h; simp [Except.map] at h
    | ok r =>
      rw [hm] at h
      simp only [Except.map, Except.ok.injEq, Prod.mk.injEq] at h
      obtain ⟨rfl, rfl⟩ := h
      exact ⟨rfl, rfl⟩
  · exact absurd h (by simp)

theorem buildPhaseDiagram_ok_pieces (es : List PDEntry) (pd : List Entry)
    (h : buildPhaseDiagram es = .ok pd) :
    exMap (fun e => match e.energy with
      | .fin q => Except.ok (⟨e.comp, q⟩ : Entry)
      | _ => Except.error Err.qhullError) es = .ok pd := by
  rw [buildPhaseDiagram] at h
  split at h
  · exact h
  · exact absurd h (by simp)

theorem analyze_ok_none (t : Csv) (es : List PDEntry) (pd : List Entry) (o : String)
    (hL : load_entries t = .ok (t, es)) (hB : buildPhaseDiagram es = .ok pd) :
    analyze t o none = .ok ⟨o, resultFrame t pd, none, []⟩ := by
  simp [analyze, hL, hB]

theorem analyze_ok_some (t : Csv) (es : List PDEntry) (pd : List Entry) (o p : String)
    (hL : load_entries t = .ok (t, es)) (hB : buildPhaseDiagram es = .ok pd) :
    analyze t o (some p) =
      if (systemElements es).length = 2 ∨ (systemElements es).length = 3 then
        .ok ⟨o, resultFrame t pd, some p, []⟩
      else .ok ⟨o, resultFrame t pd, none, [skipNotice]⟩ := by
  by_cases hn : (systemElements es).length = 2 ∨ (systemElements es).length = 3
  · rw [if_pos hn]
    simp [analyze, hL, hB, hn]
  · rw [if_neg hn]
    simp [analyze, hL, hB, hn]

theorem setCol_columns_of_not_mem (f : Frame) (name : String) (vals : List Cell)
    (h : name ∉ f.columns) : (f.setCol name vals).columns = f.columns ++ [name] := by
  rw [Frame.setCol, if_neg h]

theorem setCol_columns_of_mem (f : Frame) (name : String) (vals : List Cell)
    (h : name ∈ f.columns) : (f.setCol name vals).columns = f.columns := by
  rw [Frame.setCol, if_pos h]

theorem setCol_cells_of_not_mem (f : Frame) (name : String) (vals : List Cell)
    (h : name ∉ f.columns) :
    (f.setCol name vals).cells = (f.cells.zip vals).map (fun rv => rv.1 ++ [rv.2]) := by
  rw [Frame.setCol, if_neg h]

theorem two_setCol_columns (f : Frame) (n1 n2 : String) (v1 v2 : List Cell)
    (h1 : n1 ∉ f.columns) (h2 : n2 ∉ f.columns) (h12 : n2 ≠ n1) :
    ((f.setCol n1 v1).setCol n2 v2).columns = f.columns ++ [n1, n2] := by
  have hin := setCol_columns_of_not_mem f n1 v1 h1
  have hnot2 : n2 ∉ (f.setCol n1 v1).columns := by
    rw [hin]
    intro hmem
    rcases List.mem_append.mp hmem with h | h
    · exact h2 h
    · exact h12 (List.mem_singleton.mp h)
  rw [setCol_columns_of_not_mem _ _ _ hnot2, hin, List.append_assoc]
  rfl

theorem two_setCol_cells (f : Frame) (n1 n2 : String) (v1 v2 : List Cell)
    (h1 : n1 ∉ f.columns) (h2 : n2 ∉ f.columns) (h12 : n2 ≠ n1) :
    ((f.setCol n1 v1).setCol n2 v2).cells =
      (((f.cells.zip v1).map (fun rv => rv.1 ++ [rv.2])).zip v2).map
        (fun rv => rv.1 ++ [rv.2]) := by
  have hin := setCol_columns_of_not_mem f n1 v1 h1
  have hnot2 : n2 ∉ (f.setCol n1 v1).columns := by
    rw [hin]
    intro hmem
    rcases List.mem_append.mp hmem with h | h
    · exact h2 h
    · exact h12 (List.mem_singleton.mp h)
  rw [setCol_cells_of_not_mem _ _ _ hnot2, setCol_cells_of_not_mem _ _ _ h1]

theorem zipAppend_length (cells : List (List Cell)) (vals : List Cell)
    (h : cells.length ≤ vals.length) :
    ((cells.zip vals).map (fun rv => rv.1 ++ [rv.2])).length = cells.length := by
  rw [List.length_map, List.length_zip]
  omega

theorem zipAppend_getD (cells : List (List Cell)) (vals : List Cell) (i : ℕ)
    (hi : i < cells.length) (hlen : cells.length ≤ vals.length) :
    ((cells.zip vals).map (fun rv => rv.1 ++ [rv.2])).getD i [] =
      cells.getD i [] ++ [vals.getD i (Cell.str "")] := by
  have hz : i < (cells.zip vals).length := by rw [List.length_zip]; omega
  have hm : i < ((cells.zip vals).map (fun rv => rv.1 ++ [rv.2])).length := by
    rw [List.length_map]
    exact hz
  rw [List.getD_eq_getElem _ _ hm, List.getElem_map, List.getElem_zip,
    List.getD_eq_getElem _ _ hi, List.getD_eq_getElem _ _ (by omega : i < vals.length)]

theorem setCol_cells_of_mem (f : Frame) (name : String) (vals : List Cell)
    (h : name ∈ f.columns) :
    (f.setCol name vals).cells =
      (f.cells.zip vals).map
        (fun rv => rv.1.set (f.columns.findIdx (fun c => c == name)) rv.2) := by
  rw [Frame.setCol, if_pos h]

theorem analyze_ok_frame (t : Csv) (es : List PDEntry) (pd : List Entry)
    (o : String) (p : Option String)
    (hL : load_entries t = .ok (t, es)) (hB : buildPhaseDiagram es = .ok pd) :
    ∀ res, analyze t o p = .ok res → res.frame = resultFrame t pd ∧ res.path = o := by
  intro res hres
  cases p with
  | none =>
    rw [analyze_ok_none t es pd o hL hB] at hres
    obtain rfl := Except.ok.inj hres
    exact ⟨rfl, rfl⟩
  | some q =>
    by_cases hn : (systemElements es).length = 2 ∨ (systemElements es).length = 3
    · rw [analyze_ok_some t es pd o q hL hB, if_pos hn] at hres
      obtain rfl := Except.ok.inj hres
      exact ⟨rfl, rfl⟩
    · rw [analyze_ok_some t es pd o q hL hB, if_neg hn] at hres
      obtain rfl := Except.ok.inj hres
      exact ⟨rfl, rfl⟩

/-- C7 (amended): on success, when neither result column name already
occurs in the input header, the output table's columns are exactly the
input columns followed by `formation_energy_per_atom_eV` and
`distance_to_hull_eV`, and the table is written to the caller's path. -/
theorem C7_output_schema (t : Csv) (es : List PDEntry) (pd : List Entry)
    (o : String) (p : Option String)
    (hL : load_entries t = .ok (t, es)) (hB : buildPhaseDiagram es = .ok pd)
    (h1 : "formation_energy_per_atom_eV" ∉ t.columns)
    (h2 : "distance_to_hull_eV" ∉ t.columns) :
    ∀ res, analyze t o p = .ok res →
      res.frame.columns =
          t.columns ++ ["formation_energy_per_atom_eV", "distance_to_hull_eV"] ∧
        res.path = o := by
  intro res hres
  obtain ⟨hf, hp⟩ := analyze_ok_frame t es pd o p hL hB res hres
  rw [hf, resultFrame]
  exact ⟨two_setCol_columns (Csv.toFrame t) _ _ _ _ h1 h2 (by decide), hp⟩

/-- C7 witness: the binary scenario table with fresh result columns. -/
theorem C7_output_schema_witness :
    (load_entries csvC3 = .ok (csvC3, esC3) ∧ buildPhaseDiagram esC3 = .ok pdC3 ∧
        "formation_energy_per_atom_eV" ∉ csvC3.columns ∧
        "distance_to_hull_eV" ∉ csvC3.columns) ∧
      ∀ res, analyze csvC3 "out.csv" none = .ok res →
        res.frame.columns =
            csvC3.columns ++ ["formation_energy_per_atom_eV", "distance_to_hull_eV"] ∧
          res.path = "out.csv" :=
  ⟨⟨by with_unfolding_all rfl, by with_unfolding_all rfl, by decide, by decide⟩,
    C7_output_schema csvC3 esC3 pdC3 "out.csv" none (by with_unfolding_all rfl)
      (by with_unfolding_all rfl) (by decide) (by decide)⟩

/-- C7 counterexample: an input that already has a column named
`formation_energy_per_atom_eV` is overwritten in place, so the output
columns are NOT the input columns plus the two new names. -/
theorem C7_counterexample_preexisting_column :
    ¬(∀ res, analyze csvPreForm "out.csv" none = .ok res →
        res.frame.columns =
          csvPreForm.columns ++
            ["formation_energy_per_atom_eV", "distance_to_hull_eV"]) := by
  intro hclaim
  have hL : load_entries csvPreForm = .ok (csvPreForm, esMono) := by with_unfolding_all rfl
  have hB : buildPhaseDiagram esMono = .ok pdMono := by with_unfolding_all rfl
  have hres := analyze_ok_none csvPreForm esMono pdMono "out.csv" hL hB
  have hcols := hclaim _ hres
  have hmem : "formation_energy_per_atom_eV" ∈ (Csv.toFrame csvPreForm).columns := by decide
  have hnm : ∀ v : List Cell, "distance_to_hull_eV" ∉
      ((Csv.toFrame csvPreForm).setCol "formation_energy_per_atom_eV" v).columns := by
    intro v
    rw [setCol_columns_of_mem _ _ _ hmem]
    decide
  rw [show (Output.mk "out.csv" (resultFrame csvPreForm pdMono) none []).frame =
      resultFrame csvPreForm pdMono from rfl, resultFrame,
    setCol_columns_of_not_mem _ _ _ (hnm _), setCol_columns_of_mem _ _ _ hmem] at hcols
  exact absurd hcols (by decide)

/-- C10 (amended): on success, when neither result column name already
occurs in the input header, the output table has exactly one row per
input row, in input order, each consisting of the unchanged original
cells followed by exactly two appended numeric cells. -/
theorem C10_rows_preserved (t : Csv) (es : List PDEntry) (pd : List Entry)
    (o : String) (p : Option String)
    (hL : load_entries t = .ok (t, es)) (hB : buildPhaseDiagram es = .ok pd)
    (h1 : "formation_energy_per_atom_eV" ∉ t.columns)
    (h2 : "distance_to_hull_eV" ∉ t.columns) :
    ∀ res, analyze t o p = .ok res →
      res.frame.cells.length = t.rows.length ∧
        ∀ i, i < t.rows.length →
          ∃ a b : ℝ, res.frame.cells.getD i [] =
            (t.rows.getD i []).map Cell.str ++ [Cell.real a, Cell.real b] := by
  have hes : es.length = t.rows.length :=
    exMap_ok_length _ _ _ (load_entries_ok_pieces t t es hL).2
  have hpd : pd.length = es.length :=
    exMap_ok_length _ _ _ (buildPhaseDiagram_ok_pieces es pd hB)
  have hc0len : (Csv.toFrame t).cells.length = t.rows.length := by
    rw [Csv.toFrame, List.length_map]
  have hv1len :
      (pd.map (fun e => Cell.real ((formEnergyPerAtom pd e : ℚ) : ℝ))).length =
        t.rows.length := by
    rw [List.length_map, hpd, hes]
  have hv2len : (pd.map (fun e => Cell.real (eAboveHull pd e))).length = t.rows.length := by
    rw [List.length_map, hpd, hes]
  have hle1 : (Csv.toFrame t).cells.length ≤
      (pd.map (fun e => Cell.real ((formEnergyPerAtom pd e : ℚ) : ℝ))).length := by
    omega
  have hcells := two_setCol_cells (Csv.toFrame t) "formation_energy_per_atom_eV"
    "distance_to_hull_eV" (pd.map (fun e => Cell.real ((formEnergyPerAtom pd e : ℚ) : ℝ)))
    (pd.map (fun e => Cell.real (eAboveHull pd e))) h1 h2 (by decide)
  have hinlen : (((Csv.toFrame t).cells.zip
      (pd.map (fun e => Cell.real ((formEnergyPerAtom pd e : ℚ) : ℝ)))).map
        (fun rv => rv.1 ++ [rv.2])).length = t.rows.length := by
    rw [zipAppend_length _ _ hle1, hc0len]
  intro res hres
  obtain ⟨hf, -⟩ := analyze_ok_frame t es pd o p hL hB res hres
  rw [hf, resultFrame, hcells]
  constructor
  · rw [zipAppend_length _ _ (by omega), hinlen]
  · intro i hi
    have hipd : i < pd.length := by omega
    refine ⟨((formEnergyPerAtom pd pd[i] : ℚ) : ℝ), eAboveHull pd pd[i], ?_⟩
    rw [zipAppend_getD _ _ i (by omega) (by omega), zipAppend_getD _ _ i (by omega) (by omega)]
    have hrow : (Csv.toFrame t).cells.getD i [] = (t.rows.getD i []).map Cell.str := by
      rw [Csv.toFrame]
      rw [List.getD_eq_getElem _ _ (by rw [List.length_map]; exact hi), List.getElem_map,
        List.getD_eq_getElem _ _ hi]
    have hg1 : (pd.map (fun e => Cell.real ((formEnergyPerAtom pd e : ℚ) : ℝ))).getD i
        (Cell.str "") = Cell.real ((formEnergyPerAtom pd pd[i] : ℚ) : ℝ) := by
      rw [List.getD_eq_getElem _ _ (by rw [List.length_map]; exact hipd), List.getElem_map]
    have hg2 : (pd.map (fun e => Cell.real (eAboveHull pd e))).getD i (Cell.str "") =
        Cell.real (eAboveHull pd pd[i]) := by
      rw [List.getD_eq_getElem _ _ (by rw [List.length_map]; exact hipd), List.getElem_map]
    rw [hrow, hg1, hg2, List.append_assoc]
    rfl

/-- C10 witness: the binary scenario table keeps its rows and cells. -/
theorem C10_rows_preserved_witness :
    (load_entries csvC3 = .ok (csvC3, esC3) ∧ buildPhaseDiagram esC3 = .ok pdC3 ∧
        "formation_energy_per_atom_eV" ∉ csvC3.columns ∧
        "distance_to_hull_eV" ∉ csvC3.columns) ∧
      ∀ res, analyze csvC3 "out.csv" none = .ok res →
        res.frame.cells.length = csvC3.rows.length ∧
          ∀ i, i < csvC3.rows.length →
            ∃ a b : ℝ, res.frame.cells.getD i [] =
              (csvC3.rows.getD i []).map Cell.str ++ [Cell.real a, Cell.real b] :=
  ⟨⟨by with_unfolding_all rfl, by with_unfolding_all rfl, by decide, by decide⟩,
    C10_rows_preserved csvC3 esC3 pdC3 "out.csv" none (by with_unfolding_all rfl)
      (by with_unfolding_all rfl) (by decide) (by decide)⟩

/-- C10 counterexample: an input that already has a column named
`distance_to_hull_eV` gets that column's cell overwritten (the text cell
`"99"` is replaced by a computed number), so original data is modified. -/
theorem C10_counterexample_overwritten_cell :
    ¬(∀ res, analyze csvPreDist "out.csv" none = .ok res →
        (res.frame.cells.getD 0 []).getD 2 (Cell.str "") = Cell.str "99") := by
  intro hclaim
  have hL : load_entries csvPreDist = .ok (csvPreDist, esMono) := by with_unfolding_all rfl
  have hB : buildPhaseDiagram esMono = .ok pdMono := by with_unfolding_all rfl
  have hcell := hclaim _ (analyze_ok_none csvPreDist esMono pdMono "out.csv" hL hB)
  exact Cell.noConfusion hcell

/-- C9: with a plot requested, an image is emitted exactly for two- or
three-element systems; otherwise the skip diagnostic is printed, no
image is produced, and the run still completes with the output table
written to the caller's path. -/
theorem C9_plot_gating (t : Csv) (es : List PDEntry) (pd : List Entry) (o : String)
    (hL : load_entries t = .ok (t, es)) (hB : buildPhaseDiagram es = .ok pd) :
    ∀ p : Option String, ∃ res, analyze t o p = .ok res ∧ res.path = o ∧
      res.frame = resultFrame t pd ∧
      (∀ q, res.image = some q → p = some q ∧
        ((systemElements es).length = 2 ∨ (systemElements es).length = 3)) ∧
      ((p ≠ none ∧ ¬((systemElements es).length = 2 ∨ (systemElements es).length = 3)) →
        res.image = none ∧ res.notices = [skipNotice]) := by
  intro p
  cases p with
  | none =>
    refine ⟨_, analyze_ok_none t es pd o hL hB, rfl, rfl, ?_, ?_⟩
    · intro q hq
      exact absurd hq (by simp)
    · rintro ⟨hne, -⟩
      exact absurd rfl hne
  | some q0 =>
    by_cases hn : (systemElements es).length = 2 ∨ (systemElements es).length = 3
    · refine ⟨_, by rw [analyze_ok_some t es pd o q0 hL hB, if_pos hn], rfl, rfl, ?_, ?_⟩
      · intro q hq
        exact ⟨congrArg some (Option.some.inj hq).symm ▸ rfl, hn⟩
      · rintro ⟨-, hnn⟩
        exact absurd hn hnn
    · refine ⟨_, by rw [analyze_ok_some t es pd o q0 hL hB, if_neg hn], rfl, rfl, ?_, ?_⟩
      · intro q hq
        exact absurd hq (by simp)
      · intro _
        exact ⟨rfl, rfl⟩

/-- C9 witness: the single-element table with a plot requested. -/
theorem C9_plot_gating_witness :
    (load_entries csvMonoA = .ok (csvMonoA, esMonoA) ∧
        buildPhaseDiagram esMonoA = .ok pdMonoA ∧ (systemElements esMonoA).length = 1) ∧
      ∀ p : Option String, ∃ res, analyze csvMonoA "out.csv" p = .ok res ∧
        res.path = "out.csv" ∧ res.frame = resultFrame csvMonoA pdMonoA ∧
        (∀ q, res.image = some q → p = some q ∧
          ((systemElements esMonoA).length = 2 ∨ (systemElements esMonoA).length = 3)) ∧
        ((p ≠ none ∧
            ¬((systemElements esMonoA).length = 2 ∨ (systemElements esMonoA).length = 3)) →
          res.image = none ∧ res.notices = [skipNotice]) :=
  ⟨⟨by with_unfolding_all rfl, by with_unfolding_all rfl, by decide⟩,
    C9_plot_gating csvMonoA esMonoA pdMonoA "out.csv" (by with_unfolding_all rfl)
      (by with_unfolding_all rfl)⟩

end HullSeeds
